import Mathlib

/-!
Verification of the cooler range-query and matrix-assembly core
(`cooler/api.py`) against its specification.

The Python source is shallowly embedded: HDF5 column datasets become
`List` values, dataframes become lists of records paired with integer
row labels, NumPy/h5py slicing becomes an explicit Python-slice
function, and floating point weights are modelled as exact rationals.
The pixel reader (`TriuReader` / `query_rect`, which live in the
`core` module, outside the files under verification) is treated as an
opaque data source: its output triples are universally quantified
parameters of the matrix assembly functions.
-/

/-! ## Python slice semantics

`dset[lo:hi]` on a 1D dataset follows CPython slice index resolution:
a negative bound is first shifted by the length, then both bounds are
clamped into `[0, n]`. -/

/-- Resolution of one Python slice bound against a sequence of length `n`:
negative indices count from the end, then the result is clamped to `[0, n]`. -/
def pyIdx (n : Nat) (i : Int) : Nat :=
  if i < 0 then (i + n).toNat else min i.toNat n

/-- Python slice `xs[lo:hi]` (step 1). -/
def pySlice (xs : List α) (lo hi : Int) : List α :=
  (xs.take (pyIdx xs.length hi)).drop (pyIdx xs.length lo)

/-! ## TableSelector: the `get` function

`get(h5, lo, hi, fields, ...)` reads `dset[lo:hi]` for each requested
column and, when at least one column was read and `lo` is not `None`,
attaches the row index `np.arange(lo, lo + n)`.  We model a single
column read; the index is present exactly when `lo` is not `None`. -/

/-- Result of a row-range table read: column values plus the optional
integer row index attached by `get`. -/
structure GetFrame (α : Type) where
  values : List α
  labels : Option (List Int)
deriving Repr, DecidableEq

/-- Embedding of `get` from `cooler/api.py` for one column: the data is
`dset[lo:hi]` (Python slice semantics, `lo` defaulting to 0, `hi = None`
meaning the end of the dataset), and the index is
`np.arange(lo, lo + len(data))` when `lo` is not `None`. -/
def tableGet (col : List α) (lo : Option Int) (hi : Option Int) : GetFrame α :=
  let hiIdx := match hi with
    | none => col.length
    | some h => pyIdx col.length h
  let vals := (col.take hiIdx).drop (pyIdx col.length (lo.getD 0))
  { values := vals
    labels := match lo with
      | none => none
      | some l => some ((List.range vals.length).map (fun k => l + (k : Int))) }

/-- The behaviour claimed by the spec for the table selector: both slice
bounds clamped into `[0, row_count]`, with no shifting of negative bounds. -/
def clampedRows (col : List α) (lo hi : Int) : List α :=
  (col.take (min hi.toNat col.length)).drop (min lo.toNat col.length)

/-- Elements of a slice `(xs.take b).drop a` read off the original list. -/
theorem slice_getD (xs : List α) (a b k : Nat) (d : α)
    (hk : k < ((xs.take b).drop a).length) :
    ((xs.take b).drop a).getD k d = xs.getD (a + k) d := by
  have hlen : k < (xs.take b).length - a := by simpa using hk
  have hb : a + k < (xs.take b).length := by omega
  have hx : a + k < xs.length := by
    have := List.length_take b xs
    omega
  rw [List.getD_eq_getElem _ _ hk, List.getD_eq_getElem _ _ hx]
  rw [List.getElem_drop, List.getElem_take]

/-- C9 counterexample: with a negative lower bound the read follows
Python slice semantics (counting from the end) instead of clamping the
bound to 0, so the claim fails at `lo = -1`, `hi = 3` on a 3-row table. -/
theorem c9_counterexample :
    (tableGet [10, 20, 30] (some (-1)) (some 3) : GetFrame Int).values = [30] ∧
    clampedRows ([10, 20, 30] : List Int) (-1) 3 = [10, 20, 30] ∧
    (tableGet [10, 20, 30] (some (-1)) (some 3) : GetFrame Int).values ≠
      clampedRows ([10, 20, 30] : List Int) (-1) 3 := by
  decide

/-- C9 (amended): for nonnegative integer bounds, the row-range table
read returns the rows of `[lo, hi)` with both bounds clamped into
`[0, row_count]`, and never fails; in particular `hi` beyond the row
count is clamped and `lo ≥ hi` yields the empty result. -/
theorem c9_get_clamped (col : List Int) (lo hi : Int)
    (hlo : 0 ≤ lo) (hhi : 0 ≤ hi) :
    (tableGet col (some lo) (some hi)).values = clampedRows col lo hi ∧
    (tableGet col (some lo) none).values = clampedRows col lo (col.length : Int) ∧
    (hi ≤ lo → (tableGet col (some lo) (some hi)).values = []) := by
  have hpl : pyIdx col.length lo = min lo.toNat col.length := by
    simp [pyIdx]
    omega
  have hph : pyIdx col.length hi = min hi.toNat col.length := by
    simp [pyIdx]
    omega
  refine ⟨?_, ?_, ?_⟩
  · simp [tableGet, clampedRows, hpl, hph]
  · simp [tableGet, clampedRows, hpl]
  · intro h
    simp [tableGet, hpl, hph]
    omega

/-- C9 witness. -/
theorem c9_witness :
    (tableGet [10, 20, 30] (some 1) (some 5) : GetFrame Int).values =
        clampedRows ([10, 20, 30] : List Int) 1 5 ∧
    (tableGet [10, 20, 30] (some 1) none : GetFrame Int).values =
        clampedRows ([10, 20, 30] : List Int) 1 (([10, 20, 30] : List Int).length : Int) ∧
    ((5 : Int) ≤ 1 → (tableGet [10, 20, 30] (some 1) (some 5) : GetFrame Int).values = []) :=
  c9_get_clamped [10, 20, 30] 1 5 (by decide) (by decide)

/-- C10 counterexample: reading with lower bound `-1` on a 3-row table
returns the last row (absolute position 2) but labels it `-1`, so the
row labels are not the absolute table row positions. -/
theorem c10_counterexample :
    (tableGet [10, 20, 30] (some (-1)) none : GetFrame Int).values = [30] ∧
    (tableGet [10, 20, 30] (some (-1)) none : GetFrame Int).labels = some [-1] ∧
    ([10, 20, 30] : List Int).getD 2 0 = 30 ∧
    (∀ p : Nat, p < 3 → ([10, 20, 30] : List Int).getD p 0 = 30 → (p : Int) ≠ -1) := by
  decide

/-- C10 (amended): for a nonnegative lower bound `lo`, a non-empty
row-range read is labelled `lo, lo+1, ..., lo+n-1` and these labels are
exactly the absolute table row positions of the returned rows. -/
theorem c10_labels_absolute (col : List Int) (lo : Int) (hi : Option Int)
    (hlo : 0 ≤ lo) (hne : (tableGet col (some lo) hi).values ≠ []) :
    (tableGet col (some lo) hi).labels =
      some ((List.range (tableGet col (some lo) hi).values.length).map
        (fun k => lo + (k : Int))) ∧
    ∀ k, k < (tableGet col (some lo) hi).values.length →
      lo.toNat + k < col.length ∧
      (tableGet col (some lo) hi).values.getD k 0 = col.getD (lo.toNat + k) 0 := by
  have hpl : pyIdx col.length lo = min lo.toNat col.length := by
    simp [pyIdx]
    omega
  constructor
  · simp [tableGet]
  · intro k hk
    set hiIdx := (match hi with
      | none => col.length
      | some h => pyIdx col.length h) with hdef
    have hvals : (tableGet col (some lo) hi).values =
        (col.take hiIdx).drop (pyIdx col.length lo) := by
      simp [tableGet]
    rw [hvals] at hk ⊢
    have hlen : k < (col.take hiIdx).length - pyIdx col.length lo := by
      simpa using hk
    have htk : (col.take hiIdx).length = min hiIdx col.length := List.length_take _ _
    have hmin : pyIdx col.length lo = lo.toNat := by
      rw [hpl]
      omega
    constructor
    · omega
    · rw [hmin] at hk ⊢
      exact slice_getD col lo.toNat hiIdx k 0 hk

/-- C10 witness. -/
theorem c10_witness :
    ((tableGet [10, 20, 30] (some 1) none : GetFrame Int).labels =
      some ((List.range (tableGet [10, 20, 30] (some 1) none : GetFrame Int).values.length).map
        (fun k => (1 : Int) + (k : Int))) ∧
    ∀ k, k < (tableGet [10, 20, 30] (some 1) none : GetFrame Int).values.length →
      (1 : Int).toNat + k < ([10, 20, 30] : List Int).length ∧
      (tableGet [10, 20, 30] (some 1) none : GetFrame Int).values.getD k 0 =
        ([10, 20, 30] : List Int).getD ((1 : Int).toNat + k) 0) :=
  c10_labels_absolute [10, 20, 30] 1 none (by decide) (by decide)

/-! ## CoordinateIndex: region to bin extent

`_region_to_extent` resolves a genomic region to a half-open bin-id
range.  With a uniform bin width it divides the coordinates by the
width; otherwise it binary-searches the start coordinates of the bins
of the chromosome (`np.searchsorted`). -/

/-- Insertion point of `v` in a sorted list, left bias: index of the
first element `≥ v`, or the length if there is none.  Functional
specification of `np.searchsorted(xs, v, side='left')` on sorted input. -/
def searchsortedL (xs : List Int) (v : Int) : Nat :=
  match xs with
  | [] => 0
  | x :: rest => if v ≤ x then 0 else searchsortedL rest v + 1

/-- Insertion point of `v` in a sorted list, right bias: index of the
first element `> v`, or the length if there is none.  Functional
specification of `np.searchsorted(xs, v, side='right')` on sorted input. -/
def searchsortedR (xs : List Int) (v : Int) : Nat :=
  match xs with
  | [] => 0
  | x :: rest => if v < x then 0 else searchsortedR rest v + 1

/-- Embedding of the variable-bin-width branch of `_region_to_extent`:
slice the bin start coordinates of chromosome `cid` out of the global
bin table and binary-search them, right-biased for the query start
(minus one) and left-biased for the query end. -/
def regionToExtentVar (chromOffset : List Nat) (binStarts : List Int)
    (cid : Nat) (qstart qend : Int) : Int × Int :=
  let chromLo := chromOffset.getD cid 0
  let chromHi := chromOffset.getD (cid + 1) 0
  let chromBins := (binStarts.take chromHi).drop chromLo
  ((chromLo : Int) + (searchsortedR chromBins qstart : Int) - 1,
   (chromLo : Int) + (searchsortedL chromBins qend : Int))

/-- Embedding of the uniform-bin-width branch of `_region_to_extent`:
floor and ceiling of the genomic coordinates divided by the bin width
(true division, modelled exactly over the rationals). -/
def regionToExtentUniform (chromOffset : List Nat) (cid : Nat)
    (qstart qend binsize : Nat) : Nat × Nat :=
  let co := chromOffset.getD cid 0
  (co + (Int.floor ((qstart : ℚ) / (binsize : ℚ))).toNat,
   co + (Int.ceil ((qend : ℚ) / (binsize : ℚ))).toNat)

/-- Chromosome name resolution: the id of a name is its position in the
chromosome table (`dict(zip(names, range(n)))`). -/
def chromId (names : List String) (c : String) : Option Nat :=
  names.findIdx? (fun x => x = c)

/-- A left-biased search point is at most the list length. -/
theorem searchsortedL_le_length (xs : List Int) (v : Int) :
    searchsortedL xs v ≤ xs.length := by
  induction xs with
  | nil => simp [searchsortedL]
  | cons x rest ih =>
    simp only [searchsortedL, List.length_cons]
    split
    · omega
    · omega

/-- A right-biased search point is at most the list length. -/
theorem searchsortedR_le_length (xs : List Int) (v : Int) :
    searchsortedR xs v ≤ xs.length := by
  induction xs with
  | nil => simp [searchsortedR]
  | cons x rest ih =>
    simp only [searchsortedR, List.length_cons]
    split
    · omega
    · omega

/-- Characterization of the left-biased search on a sorted list: the
positions strictly before the insertion point are exactly those whose
element is strictly below `v`. -/
theorem searchsortedL_spec (xs : List Int) (v : Int)
    (hs : xs.Pairwise (· ≤ ·)) :
    ∀ k, k < xs.length → (k < searchsortedL xs v ↔ xs.getD k 0 < v) := by
  induction xs with
  | nil => intro k hk; simp at hk
  | cons x rest ih =>
    intro k hk
    rcases List.pairwise_cons.1 hs with ⟨hx, hrest⟩
    match k with
    | 0 =>
      simp only [List.getD_cons_zero, searchsortedL]
      split
      · rename_i hvx
        constructor
        · omega
        · omega
      · rename_i hvx
        constructor
        · omega
        · omega
    | k' + 1 =>
      have hk' : k' < rest.length := by simpa using hk
      have hxk : x ≤ rest.getD k' 0 := by
        have hmem : rest.getD k' 0 ∈ rest := by
          rw [List.getD_eq_getElem _ _ hk']
          exact List.getElem_mem hk'
        exact hx _ hmem
      have hih := ih hrest k' hk'
      simp only [List.getD_cons_succ, searchsortedL]
      split
      · rename_i hvx
        constructor
        · omega
        · omega
      · rename_i hvx
        constructor
        · intro h; exact hih.1 (by omega)
        · intro h; have := hih.2 h; omega

/-- Characterization of the right-biased search on a sorted list: the
positions strictly before the insertion point are exactly those whose
element is at most `v`. -/
theorem searchsortedR_spec (xs : List Int) (v : Int)
    (hs : xs.Pairwise (· ≤ ·)) :
    ∀ k, k < xs.length → (k < searchsortedR xs v ↔ xs.getD k 0 ≤ v) := by
  induction xs with
  | nil => intro k hk; simp at hk
  | cons x rest ih =>
    intro k hk
    rcases List.pairwise_cons.1 hs with ⟨hx, hrest⟩
    match k with
    | 0 =>
      simp only [List.getD_cons_zero, searchsortedR]
      split
      · rename_i hvx
        constructor
        · omega
        · omega
      · rename_i hvx
        constructor
        · omega
        · omega
    | k' + 1 =>
      have hk' : k' < rest.length := by simpa using hk
      have hxk : x ≤ rest.getD k' 0 := by
        have hmem : rest.getD k' 0 ∈ rest := by
          rw [List.getD_eq_getElem _ _ hk']
          exact List.getElem_mem hk'
        exact hx _ hmem
      have hih := ih hrest k' hk'
      simp only [List.getD_cons_succ, searchsortedR]
      split
      · rename_i hvx
        constructor
        · omega
        · omega
      · rename_i hvx
        constructor
        · intro h; exact hih.1 (by omega)
        · intro h; have := hih.2 h; omega

/-- C3: on a variable-bin-width container, region resolution returns
`lo = chrom_offset[cid] + r` with `r` the rightmost index of the
chromosome's bin starts with `bin.start ≤ start`, and
`hi = chrom_offset[cid] + l` with `l` the leftmost index with
`bin.start ≥ end` (the length of the chromosome's bin list if there is
none); the half-open bin range `[r, l)` covers every bin of the
chromosome overlapping the half-open genomic interval.  `chromBins` and
`chromEnds` are the start and end coordinates of the bins of chromosome
`cid`; contiguity of consecutive bins is assumed as in the data model. -/
theorem c3_region_extent_variable
    (chromOffset : List Nat) (binStarts chromEnds : List Int) (cid : Nat)
    (qstart qend : Int) (chromBins : List Int)
    (hbins : chromBins =
      (binStarts.take (chromOffset.getD (cid + 1) 0)).drop (chromOffset.getD cid 0))
    (hs : chromBins.Pairwise (· ≤ ·))
    (hn : 0 < chromBins.length)
    (h0 : chromBins.getD 0 0 ≤ qstart)
    (hcontig : ∀ k, k + 1 < chromBins.length →
      chromEnds.getD k 0 = chromBins.getD (k + 1) 0) :
    ∃ r l : Nat,
      regionToExtentVar chromOffset binStarts cid qstart qend =
        ((chromOffset.getD cid 0 : Int) + r, (chromOffset.getD cid 0 : Int) + l) ∧
      r < chromBins.length ∧
      (∀ k, k < chromBins.length → (chromBins.getD k 0 ≤ qstart ↔ k ≤ r)) ∧
      l ≤ chromBins.length ∧
      (∀ k, k < chromBins.length → (k < l ↔ chromBins.getD k 0 < qend)) ∧
      (∀ k, k < chromBins.length → chromBins.getD k 0 < qend →
        qstart < chromEnds.getD k 0 → r ≤ k ∧ k < l) := by
  have hR := searchsortedR_spec chromBins qstart hs
  have hL := searchsortedL_spec chromBins qend hs
  have hRle := searchsortedR_le_length chromBins qstart
  have hLle := searchsortedL_le_length chromBins qend
  have hRpos : 0 < searchsortedR chromBins qstart := (hR 0 hn).2 h0
  refine ⟨searchsortedR chromBins qstart - 1, searchsortedL chromBins qend,
    ?_, by omega, ?_, hLle, fun k hk => hL k hk, ?_⟩
  · simp only [regionToExtentVar, ← hbins]
    have hcast : ((searchsortedR chromBins qstart - 1 : Nat) : Int) =
        (searchsortedR chromBins qstart : Int) - 1 := by omega
    rw [hcast, Prod.mk.injEq]
    exact ⟨by ring, rfl⟩
  · intro k hk
    rw [← hR k hk]
    omega
  · intro k hk hklo hkhi
    refine ⟨?_, (hL k hk).2 hklo⟩
    by_contra hlt
    have hk1 : k + 1 < chromBins.length := by
      have := hRle
      omega
    have hek : chromEnds.getD k 0 = chromBins.getD (k + 1) 0 := hcontig k hk1
    have : chromBins.getD (k + 1) 0 ≤ qstart := by
      have := (hR (k + 1) hk1).1 (by omega)
      exact this
    omega

/-- C3 witness. -/
theorem c3_witness :
    (([(0 : Int), 4, 9] : List Int) =
      (([(0 : Int), 3, 0, 4, 9].take (([0, 2, 5] : List Nat).getD 2 0)).drop
        (([0, 2, 5] : List Nat).getD 1 0)) ∧
     ([(0 : Int), 4, 9] : List Int).Pairwise (· ≤ ·) ∧
     0 < ([(0 : Int), 4, 9] : List Int).length ∧
     ([(0 : Int), 4, 9] : List Int).getD 0 0 ≤ (2 : Int) ∧
     (∀ k, k + 1 < ([(0 : Int), 4, 9] : List Int).length →
       ([(4 : Int), 9, 12] : List Int).getD k 0 =
         ([(0 : Int), 4, 9] : List Int).getD (k + 1) 0)) ∧
    ∃ r l : Nat,
      regionToExtentVar [0, 2, 5] [0, 3, 0, 4, 9] 1 2 5 =
        ((([0, 2, 5] : List Nat).getD 1 0 : Int) + r,
         (([0, 2, 5] : List Nat).getD 1 0 : Int) + l) ∧
      r < ([(0 : Int), 4, 9] : List Int).length ∧
      (∀ k, k < ([(0 : Int), 4, 9] : List Int).length →
        (([(0 : Int), 4, 9] : List Int).getD k 0 ≤ 2 ↔ k ≤ r)) ∧
      l ≤ ([(0 : Int), 4, 9] : List Int).length ∧
      (∀ k, k < ([(0 : Int), 4, 9] : List Int).length →
        (k < l ↔ ([(0 : Int), 4, 9] : List Int).getD k 0 < 5)) ∧
      (∀ k, k < ([(0 : Int), 4, 9] : List Int).length →
        ([(0 : Int), 4, 9] : List Int).getD k 0 < 5 →
        (2 : Int) < ([(4 : Int), 9, 12] : List Int).getD k 0 → r ≤ k ∧ k < l) :=
  ⟨⟨by decide, by decide, by decide, by decide,
    by intro k hk
       match k with
       | 0 => rfl
       | 1 => rfl
       | n + 2 => exact absurd hk (by simp)⟩,
   c3_region_extent_variable [0, 2, 5] [0, 3, 0, 4, 9] [4, 9, 12] 1 2 5
     [0, 4, 9] (by decide) (by decide) (by decide) (by decide)
     (by intro k hk
         match k with
         | 0 => rfl
         | 1 => rfl
         | n + 2 => exact absurd hk (by simp))⟩

/-- Euclidean division of a negated natural rounds to the negated
ceiling division. -/
theorem neg_natCast_ediv (q b : Nat) (hb : 0 < b) :
    (-(q : ℤ)) / (b : ℤ) = -(((q + b - 1) / b : ℕ) : ℤ) := by
  have hc := Nat.div_add_mod (q + b - 1) b
  have hr : (q + b - 1) % b < b := Nat.mod_lt _ hb
  set D := (q + b - 1) / b with hD
  set P := b * D with hP
  set M := (q + b - 1) % b with hM
  have hq1 : q ≤ P := by omega
  have hq2 : P < q + b := by omega
  have hbz : (0 : ℤ) < (b : ℤ) := by exact_mod_cast hb
  have hcast : ((P : ℕ) : ℤ) = (b : ℤ) * (D : ℤ) := by
    rw [hP]
    push_cast
    ring
  have h := (Int.ediv_emod_unique hbz
      (a := -(q : ℤ)) (q := -(D : ℤ))
      (r := (b : ℤ) * (D : ℤ) - q)).2 ⟨by ring, by
        have h1 : (q : ℤ) ≤ ((P : ℕ) : ℤ) := by exact_mod_cast hq1
        rw [hcast] at h1
        omega, by
        have h2 : ((P : ℕ) : ℤ) < (q : ℤ) + b := by exact_mod_cast hq2
        rw [hcast] at h2
        omega⟩
  exact h.1

/-- C4: on a uniform-bin-width container, region resolution returns
`lo = chrom_offset[cid] + floor(start / width)` and
`hi = chrom_offset[cid] + ceil(end / width)`, expressed through natural
division; and in the concrete scenario with chromosome offsets
`[0, 2, 6, 9]` (lengths 10, 20, 15, width 5), resolving
`("chr2", 0, 10)` yields the bin extent `(2, 4)`. -/
theorem c4_region_extent_uniform (chromOffset : List Nat) (cid : Nat)
    (qstart qend binsize : Nat) (hb : 0 < binsize) :
    regionToExtentUniform chromOffset cid qstart qend binsize =
      (chromOffset.getD cid 0 + qstart / binsize,
       chromOffset.getD cid 0 + (qend + binsize - 1) / binsize) ∧
    (chromId ["chr1", "chr2", "chr3"] "chr2" = some 1 ∧
     regionToExtentUniform [0, 2, 6, 9] 1 0 10 5 = (2, 4)) := by
  constructor
  · have hfl : (Int.floor ((qstart : ℚ) / (binsize : ℚ))) =
        ((qstart / binsize : ℕ) : ℤ) := by
      have h1 : ((qstart : ℚ)) = (((qstart : ℤ) : ℚ)) := by push_cast; ring
      rw [h1, Rat.floor_intCast_div_natCast]
      exact (Int.ofNat_div _ _).symm
    have hcl : (Int.ceil ((qend : ℚ) / (binsize : ℚ))) =
        (((qend + binsize - 1) / binsize : ℕ) : ℤ) := by
      have h2 : ⌈(qend : ℚ) / (binsize : ℚ)⌉ = -⌊-((qend : ℚ) / (binsize : ℚ))⌋ := by
        rw [Int.floor_neg]
        ring
      have h3 : -((qend : ℚ) / (binsize : ℚ)) = ((-(qend : ℤ) : ℤ) : ℚ) / ((binsize : ℕ) : ℚ) := by
        push_cast
        ring
      rw [h2, h3, Rat.floor_intCast_div_natCast, neg_natCast_ediv qend binsize hb, neg_neg]
    simp only [regionToExtentUniform, hfl, hcl, Int.toNat_natCast]
  · constructor
    · rfl
    · have : regionToExtentUniform [0, 2, 6, 9] 1 0 10 5 =
          (2 + (Int.floor ((0 : ℚ) / (5 : ℚ))).toNat,
           2 + (Int.ceil ((10 : ℚ) / (5 : ℚ))).toNat) := rfl
      rw [this]
      norm_num
      decide

/-- C4 witness. -/
theorem c4_witness :
    (regionToExtentUniform [0, 2, 6, 9] 1 0 10 5 =
      (([0, 2, 6, 9] : List Nat).getD 1 0 + 0 / 5,
       ([0, 2, 6, 9] : List Nat).getD 1 0 + (10 + 5 - 1) / 5) ∧
    (chromId ["chr1", "chr2", "chr3"] "chr2" = some 1 ∧
     regionToExtentUniform [0, 2, 6, 9] 1 0 10 5 = (2, 4))) :=
  c4_region_extent_uniform [0, 2, 6, 9] 1 0 10 5 (by decide)

/-! ## Annotator: the `annotate` function

`annotate(pixels, bins)` left-joins the `bin1_id` and then the
`bin2_id` column of a pixel frame against the bin table, whose row
index corresponds to bin ids.  A dataframe is modelled as a list of
rows paired with their integer row labels (`labelsFrom`); pandas
positional slicing `bins[lo:hi]` is `pySlice`; `merge(..., how='left',
left_on=key, right_index=True)` emits, for every left row in order, one
output row per matching right label, or a single NaN-filled row when
there is no match. -/

/-- A pixel record: the two bin-id columns and a value column. -/
structure PixelRow where
  bin1_id : Int
  bin2_id : Int
  value : ℚ
deriving Repr, DecidableEq

/-- Rows labelled with consecutive integer row labels starting at `off`. -/
def labelsFrom (off : Nat) : List β → List (Int × β)
  | [] => []
  | b :: bs => ((off : Int), b) :: labelsFrom (off + 1) bs

/-- The bin table as a labelled frame with the default index `0..n-1`. -/
def indexedBins (bins : List β) : List (Int × β) :=
  labelsFrom 0 bins

/-- The window `(lo, hi)` computed by `annotate` from a bin-id column:
`lo = min`, `hi = max + 1`, with the NaN of an empty column giving
`(0, 0)`. -/
def annWindow (keys : List Int) : Int × Int :=
  match keys with
  | [] => (0, 0)
  | x :: r => (r.foldl min x, r.foldl max x + 1)

/-- The right table `annotate` joins one bin-id column against: the bin
table positionally sliced to the referenced window when it has more
rows than the current pixel frame, the full bin table otherwise. -/
def annRightTable (keys : List Int) (nrows : Nat) (bins : List (Int × β)) :
    List (Int × β) :=
  if bins.length > nrows then
    pySlice bins (annWindow keys).1 (annWindow keys).2
  else
    bins

/-- Concatenation of the lists produced for each element. -/
def flatMapL (f : α → List γ) : List α → List γ
  | [] => []
  | a :: rest => f a ++ flatMapL f rest

/-- Pandas left merge of a frame against a labelled right table on an
integer key column: each left row is joined with every right row whose
label equals its key, or with a missing value when no label matches. -/
def mergeLeft (left : List γ) (key : γ → Int) (right : List (Int × β)) :
    List (γ × Option β) :=
  flatMapL (fun r =>
    match right.filter (fun p => p.1 = key r) with
    | [] => [(r, none)]
    | ms => ms.map (fun p => (r, some p.2))) left

/-- Embedding of `annotate` from `cooler/api.py`, generic in the row
type: join the `bin1_id` key, then the `bin2_id` key (each against its
`annRightTable`), then move the injected columns to the front; the
second window test uses the length of the already-merged frame, as in
the source. -/
def annotateG (rows : List γ) (k1 k2 : γ → Int) (bins : List (Int × β)) :
    List (Option β × Option β × γ) :=
  let m1 := mergeLeft rows k1 (annRightTable (rows.map k1) rows.length bins)
  let m2 := mergeLeft m1 (fun x => k2 x.1)
    (annRightTable (m1.map (fun x => k2 x.1)) m1.length bins)
  m2.map (fun x => (x.1.2, x.2, x.1.1))

/-- `annotate` on a pixel frame against a bin table indexed by row
position. -/
def annotatePixels (pixels : List PixelRow) (bins : List β) :
    List (Option β × Option β × PixelRow) :=
  annotateG pixels (fun p => p.bin1_id) (fun p => p.bin2_id) (indexedBins bins)

/-- The same join performed against the full bin table for both bin-id
columns, with no window optimization. -/
def annotateFullG (rows : List γ) (k1 k2 : γ → Int) (bins : List (Int × β)) :
    List (Option β × Option β × γ) :=
  let m1 := mergeLeft rows k1 bins
  let m2 := mergeLeft m1 (fun x => k2 x.1) bins
  m2.map (fun x => (x.1.2, x.2, x.1.1))

/-- Label lookup in a frame whose labels start at `off`. -/
def frameLookup (off : Nat) (xs : List β) (k : Int) : Option β :=
  if k < (off : Int) then none else xs[(k - (off : Int)).toNat]?

/-- Filtering a labelled frame for one label yields the (unique) match
found by `frameLookup`. -/
theorem labelsFrom_filter (off : Nat) (xs : List β) (k : Int) :
    (labelsFrom off xs).filter (fun p => decide (p.1 = k)) =
      (frameLookup off xs k).elim [] (fun b => [(k, b)]) := by
  induction xs generalizing off with
  | nil =>
    simp [labelsFrom, frameLookup]
  | cons b bs ih =>
    simp only [labelsFrom, List.filter_cons]
    by_cases hoff : (off : Int) = k
    · have hrest : (labelsFrom (off + 1) bs).filter (fun p => decide (p.1 = k)) = [] := by
        rw [ih (off + 1)]
        have : frameLookup (off + 1) bs k = none := by
          simp only [frameLookup]
          rw [if_pos (by omega)]
        rw [this]
        rfl
      rw [if_pos (by simpa using hoff), hrest]
      have hlook : frameLookup off (b :: bs) k = some b := by
        simp only [frameLookup]
        rw [if_neg (by omega)]
        have : (k - (off : Int)).toNat = 0 := by omega
        rw [this]
        simp
      rw [hlook]
      simp [hoff]
    · rw [if_neg (by simpa using hoff), ih (off + 1)]
      by_cases hlt : k < (off : Int)
      · have h1 : frameLookup (off + 1) bs k = none := by
          simp only [frameLookup]
          rw [if_pos (by omega)]
        have h2 : frameLookup off (b :: bs) k = none := by
          simp only [frameLookup]
          rw [if_pos (by omega)]
        rw [h1, h2]
      · have hgt : (off : Int) < k := by omega
        have h2 : frameLookup off (b :: bs) k = frameLookup (off + 1) bs k := by
          simp only [frameLookup]
          rw [if_neg (by omega), if_neg (by omega)]
          have htn : (k - (off : Int)).toNat = (k - ((off : Int) + 1)).toNat + 1 := by omega
          rw [htn, List.getElem?_cons_succ]
          congr 1
        rw [h2]

/-- A merge against a labelled frame is a per-row lookup: it never
drops nor duplicates left rows. -/
theorem mergeLeft_labelsFrom (left : List γ) (key : γ → Int) (off : Nat)
    (xs : List β) :
    mergeLeft left key (labelsFrom off xs) =
      left.map (fun r => (r, frameLookup off xs (key r))) := by
  induction left with
  | nil => rfl
  | cons r rest ih =>
    simp only [mergeLeft, flatMapL, List.map_cons] at ih ⊢
    rw [ih]
    have hf := labelsFrom_filter off xs (key r)
    cases hlook : frameLookup off xs (key r) with
    | none =>
      rw [hlook] at hf
      simp only [Option.elim] at hf
      rw [hf]
      rfl
    | some b =>
      rw [hlook] at hf
      simp only [Option.elim] at hf
      rw [hf]
      rfl

/-- Labelled frames have the length of their row list. -/
theorem labelsFrom_length (off : Nat) (xs : List β) :
    (labelsFrom off xs).length = xs.length := by
  induction xs generalizing off with
  | nil => rfl
  | cons b bs ih => simp [labelsFrom, ih]

/-- Taking a prefix of a labelled frame labels the prefix. -/
theorem labelsFrom_take (off : Nat) (xs : List β) (m : Nat) :
    (labelsFrom off xs).take m = labelsFrom off (xs.take m) := by
  induction xs generalizing off m with
  | nil => simp [labelsFrom]
  | cons b bs ih =>
    match m with
    | 0 => rfl
    | m' + 1 => simp [labelsFrom, ih]

/-- Dropping a prefix of a labelled frame shifts the starting label. -/
theorem labelsFrom_drop (off : Nat) (xs : List β) (m : Nat) :
    (labelsFrom off xs).drop m = labelsFrom (off + m) (xs.drop m) := by
  induction xs generalizing off m with
  | nil => simp [labelsFrom]
  | cons b bs ih =>
    match m with
    | 0 => rfl
    | m' + 1 =>
      simp only [labelsFrom, List.drop_succ_cons]
      rw [ih (off + 1) m']
      have : off + 1 + m' = off + (m' + 1) := by omega
      rw [this]

/-- Positional slicing of the default-indexed bin table keeps the
labels of the surviving rows. -/
theorem pySlice_labelsFrom (bins : List β) (lo hi : Int) :
    pySlice (labelsFrom 0 bins) lo hi =
      labelsFrom (pyIdx bins.length lo)
        ((bins.take (pyIdx bins.length hi)).drop (pyIdx bins.length lo)) := by
  simp only [pySlice, labelsFrom_length]
  rw [labelsFrom_take, labelsFrom_drop]
  simp

/-- A left fold by `min` is bounded by its initial value. -/
theorem foldl_min_le_init (r : List Int) : ∀ x : Int, r.foldl min x ≤ x := by
  induction r with
  | nil => intro x; simp
  | cons a rest ih =>
    intro x
    simp only [List.foldl_cons]
    have := ih (min x a)
    omega

/-- A left fold by `min` is bounded by every list element. -/
theorem foldl_min_le_mem (r : List Int) : ∀ x y : Int, y ∈ r → r.foldl min x ≤ y := by
  induction r with
  | nil => intro x y hy; simp at hy
  | cons a rest ih =>
    intro x y hy
    simp only [List.foldl_cons]
    rcases List.mem_cons.1 hy with h | h
    · subst h
      have := foldl_min_le_init rest (min x y)
      omega
    · exact ih (min x a) y h

/-- A left fold by `max` dominates its initial value. -/
theorem le_foldl_max_init (r : List Int) : ∀ x : Int, x ≤ r.foldl max x := by
  induction r with
  | nil => intro x; simp
  | cons a rest ih =>
    intro x
    simp only [List.foldl_cons]
    have := ih (max x a)
    omega

/-- A left fold by `max` dominates every list element. -/
theorem le_foldl_max_mem (r : List Int) : ∀ x y : Int, y ∈ r → y ≤ r.foldl max x := by
  induction r with
  | nil => intro x y hy; simp at hy
  | cons a rest ih =>
    intro x y hy
    simp only [List.foldl_cons]
    rcases List.mem_cons.1 hy with h | h
    · subst h
      have := le_foldl_max_init rest (max x y)
      omega
    · exact ih (max x a) y h

/-- Every referenced key lies inside the half-open window computed by
`annotate`. -/
theorem annWindow_bounds (keys : List Int) (k : Int) (hk : k ∈ keys) :
    (annWindow keys).1 ≤ k ∧ k < (annWindow keys).2 := by
  match keys with
  | [] => simp at hk
  | x :: r =>
    simp only [annWindow]
    rcases List.mem_cons.1 hk with h | h
    · subst h
      have h1 := foldl_min_le_init r k
      have h2 := le_foldl_max_init r k
      omega
    · have h1 := foldl_min_le_mem r x k h
      have h2 := le_foldl_max_mem r x k h
      omega

/-- The window lower bound is nonnegative when all keys are. -/
theorem annWindow_nonneg (keys : List Int) (hpos : ∀ y ∈ keys, 0 ≤ y) :
    0 ≤ (annWindow keys).1 := by
  match keys with
  | [] => simp [annWindow]
  | x :: r =>
    simp only [annWindow]
    induction r generalizing x with
    | nil => exact hpos x (by simp)
    | cons a rest ih =>
      simp only [List.foldl_cons]
      have hx : 0 ≤ x := hpos x (by simp)
      have ha : 0 ≤ a := hpos a (by simp)
      have : ∀ y ∈ min x a :: rest, 0 ≤ y := by
        intro y hy
        rcases List.mem_cons.1 hy with h | h
        · subst h; omega
        · exact hpos y (by simp [h])
      exact ih (min x a) this

/-- Looking a key up in the window-sliced bin table agrees with looking
it up in the full table, provided the key lies inside the window and
inside the table. -/
theorem frameLookup_slice (bins : List β) (lo hi k : Int)
    (h0 : 0 ≤ lo) (hlk : lo ≤ k) (hkh : k < hi) (hkn : k < (bins.length : Int)) :
    frameLookup (pyIdx bins.length lo)
      ((bins.take (pyIdx bins.length hi)).drop (pyIdx bins.length lo)) k =
    frameLookup 0 bins k := by
  have hl : pyIdx bins.length lo = lo.toNat := by
    simp only [pyIdx]
    rw [if_neg (by omega)]
    omega
  have hh : pyIdx bins.length hi = min hi.toNat bins.length := by
    simp only [pyIdx]
    rw [if_neg (by omega)]
  simp only [frameLookup, hl, hh]
  rw [if_neg (by omega), if_neg (by omega)]
  rw [List.getElem?_drop, List.getElem?_take]
  rw [if_pos (by omega)]
  congr 1
  omega

/-- The right table used by `annotate` for a key column of the
default-indexed bin table, in labelled-frame form. -/
theorem annRightTable_indexed (keys : List Int) (n : Nat) (bins : List β) :
    annRightTable keys n (indexedBins bins) =
      if bins.length > n then
        labelsFrom (pyIdx bins.length (annWindow keys).1)
          ((bins.take (pyIdx bins.length (annWindow keys).2)).drop
            (pyIdx bins.length (annWindow keys).1))
      else labelsFrom 0 bins := by
  simp only [annRightTable, indexedBins, labelsFrom_length]
  split
  · exact pySlice_labelsFrom bins _ _
  · rfl

/-- One `annotate` join step against the (possibly window-sliced) bin
table is the same per-row lookup as a join against the full table, when
every key of the frame occurs in the key column and lies inside the
table. -/
theorem mergeLeft_annRightTable (left : List γ) (key : γ → Int)
    (keys : List Int) (n : Nat) (bins : List β)
    (hmem : ∀ r ∈ left, key r ∈ keys)
    (hpos : ∀ y ∈ keys, 0 ≤ y)
    (hin : ∀ r ∈ left, key r < (bins.length : Int)) :
    mergeLeft left key (annRightTable keys n (indexedBins bins)) =
      left.map (fun r => (r, frameLookup 0 bins (key r))) := by
  rw [annRightTable_indexed]
  split
  · rw [mergeLeft_labelsFrom]
    apply List.map_congr_left
    intro r hr
    have hb := annWindow_bounds keys (key r) (hmem r hr)
    have h0 := annWindow_nonneg keys hpos
    rw [frameLookup_slice bins (annWindow keys).1 (annWindow keys).2 (key r)
      h0 hb.1 hb.2 (hin r hr)]
  · exact mergeLeft_labelsFrom left key 0 bins

/-- A join step of `annotate` preserves the row count regardless of the
window, because the bin-table labels are unique. -/
theorem mergeLeft_annRightTable_length (left : List γ) (key : γ → Int)
    (keys : List Int) (n : Nat) (bins : List β) :
    (mergeLeft left key (annRightTable keys n (indexedBins bins))).length =
      left.length := by
  rw [annRightTable_indexed]
  split
  · rw [mergeLeft_labelsFrom]
    simp
  · rw [mergeLeft_labelsFrom]
    simp

/-- C7: for every pixel frame whose bin ids lie within the bin table
and every (positionally indexed, hence uniquely labelled) bin table,
`annotate` returns exactly as many rows as its input: no row is dropped
or duplicated. -/
theorem c7_annotate_row_count (pixels : List PixelRow) (bins : List β)
    (hin : ∀ p ∈ pixels, 0 ≤ p.bin1_id ∧ p.bin1_id < (bins.length : Int) ∧
      0 ≤ p.bin2_id ∧ p.bin2_id < (bins.length : Int)) :
    (annotatePixels pixels bins).length = pixels.length := by
  simp only [annotatePixels, annotateG]
  rw [List.length_map, mergeLeft_annRightTable_length, mergeLeft_annRightTable_length]

/-- C7 witness. -/
theorem c7_witness :
    (∀ p ∈ ([⟨0, 1, 5⟩, ⟨1, 1, 7⟩] : List PixelRow),
      0 ≤ p.bin1_id ∧ p.bin1_id < (([100, 200] : List Int).length : Int) ∧
      0 ≤ p.bin2_id ∧ p.bin2_id < (([100, 200] : List Int).length : Int)) ∧
    (annotatePixels [⟨0, 1, 5⟩, ⟨1, 1, 7⟩] ([100, 200] : List Int)).length =
      ([⟨0, 1, 5⟩, ⟨1, 1, 7⟩] : List PixelRow).length :=
  ⟨by decide, c7_annotate_row_count [⟨0, 1, 5⟩, ⟨1, 1, 7⟩] [100, 200] (by decide)⟩

/-- C2 counterexample: for a 3-row pixel frame referencing only bin 0
of a 2-row bin table, the referenced window `[0, 1)` is narrower than
the bin table, yet `annotate` joins against the full table, because its
actual trigger is the comparison of table length against frame length. -/
theorem c2_counterexample :
    ((annWindow (([⟨0, 0, 1⟩, ⟨0, 0, 1⟩, ⟨0, 0, 1⟩] : List PixelRow).map
        (fun p => p.bin1_id))).2 -
      (annWindow (([⟨0, 0, 1⟩, ⟨0, 0, 1⟩, ⟨0, 0, 1⟩] : List PixelRow).map
        (fun p => p.bin1_id))).1 < (([10, 20] : List Int).length : Int)) ∧
    annRightTable (([⟨0, 0, 1⟩, ⟨0, 0, 1⟩, ⟨0, 0, 1⟩] : List PixelRow).map
        (fun p => p.bin1_id))
      ([⟨0, 0, 1⟩, ⟨0, 0, 1⟩, ⟨0, 0, 1⟩] : List PixelRow).length
      (indexedBins ([10, 20] : List Int)) = indexedBins ([10, 20] : List Int) ∧
    indexedBins ([10, 20] : List Int) ≠
      pySlice (indexedBins ([10, 20] : List Int))
        (annWindow (([⟨0, 0, 1⟩, ⟨0, 0, 1⟩, ⟨0, 0, 1⟩] : List PixelRow).map
          (fun p => p.bin1_id))).1
        (annWindow (([⟨0, 0, 1⟩, ⟨0, 0, 1⟩, ⟨0, 0, 1⟩] : List PixelRow).map
          (fun p => p.bin1_id))).2 := by
  decide

/-- C2 (amended): `annotate` slices the bin table to the referenced
window `[min, max+1)` exactly when the bin table has more rows than the
current pixel frame (not when the referenced range is narrower than the
table), and joins against the full table otherwise; in both cases,
whenever the referenced bin ids lie inside the bin table, the joined
result is the same as joining against the full table. -/
theorem c2_annotate_slicing (pixels : List PixelRow) (bins : List β)
    (hin : ∀ p ∈ pixels, 0 ≤ p.bin1_id ∧ p.bin1_id < (bins.length : Int) ∧
      0 ≤ p.bin2_id ∧ p.bin2_id < (bins.length : Int)) :
    (bins.length > pixels.length →
      annRightTable (pixels.map (fun p => p.bin1_id)) pixels.length
          (indexedBins bins) =
        pySlice (indexedBins bins)
          (annWindow (pixels.map (fun p => p.bin1_id))).1
          (annWindow (pixels.map (fun p => p.bin1_id))).2) ∧
    (¬ bins.length > pixels.length →
      annRightTable (pixels.map (fun p => p.bin1_id)) pixels.length
          (indexedBins bins) =
        indexedBins bins) ∧
    annotatePixels pixels bins =
      annotateFullG pixels (fun p => p.bin1_id) (fun p => p.bin2_id)
        (indexedBins bins) := by
  refine ⟨?_, ?_, ?_⟩
  · intro h
    unfold annRightTable
    rw [if_pos (show (indexedBins bins).length > pixels.length by
      rwa [indexedBins, labelsFrom_length])]
  · intro h
    unfold annRightTable
    rw [if_neg (show ¬ (indexedBins bins).length > pixels.length by
      rwa [indexedBins, labelsFrom_length])]
  · have hmem1 : ∀ r ∈ pixels, r.bin1_id ∈ pixels.map (fun p => p.bin1_id) :=
      fun r hr => List.mem_map_of_mem _ hr
    have hpos1 : ∀ y ∈ pixels.map (fun p => p.bin1_id), 0 ≤ y := by
      intro y hy
      rcases List.mem_map.1 hy with ⟨p, hp, rfl⟩
      exact (hin p hp).1
    have hin1 : ∀ r ∈ pixels, r.bin1_id < (bins.length : Int) :=
      fun r hr => (hin r hr).2.1
    have hmem2 : ∀ r ∈ pixels.map (fun p => (p, frameLookup 0 bins p.bin1_id)),
        r.1.bin2_id ∈ (pixels.map (fun p => (p, frameLookup 0 bins p.bin1_id))).map
          (fun x => x.1.bin2_id) :=
      fun r hr => List.mem_map_of_mem _ hr
    have hpos2 : ∀ y ∈ (pixels.map (fun p => (p, frameLookup 0 bins p.bin1_id))).map
        (fun x => x.1.bin2_id), 0 ≤ y := by
      intro y hy
      rcases List.mem_map.1 hy with ⟨x, hx, rfl⟩
      rcases List.mem_map.1 hx with ⟨p, hp, rfl⟩
      exact (hin p hp).2.2.1
    have hin2 : ∀ r ∈ pixels.map (fun p => (p, frameLookup 0 bins p.bin1_id)),
        r.1.bin2_id < (bins.length : Int) := by
      intro r hr
      rcases List.mem_map.1 hr with ⟨p, hp, rfl⟩
      exact (hin p hp).2.2.2
    have hL : annotatePixels pixels bins =
        ((pixels.map (fun p => (p, frameLookup 0 bins p.bin1_id))).map
          (fun x => (x, frameLookup 0 bins x.1.bin2_id))).map
            (fun x => (x.1.2, x.2, x.1.1)) := by
      simp only [annotatePixels, annotateG]
      rw [mergeLeft_annRightTable pixels (fun p => p.bin1_id) _ _ bins
        hmem1 hpos1 hin1]
      rw [mergeLeft_annRightTable (pixels.map (fun p => (p, frameLookup 0 bins p.bin1_id)))
        (fun x => x.1.bin2_id) _ _ bins hmem2 hpos2 hin2]
    have hR : annotateFullG pixels (fun p => p.bin1_id) (fun p => p.bin2_id)
        (indexedBins bins) =
        ((pixels.map (fun p => (p, frameLookup 0 bins p.bin1_id))).map
          (fun x => (x, frameLookup 0 bins x.1.bin2_id))).map
            (fun x => (x.1.2, x.2, x.1.1)) := by
      simp only [annotateFullG]
      rw [show (indexedBins bins : List (Int × β)) = labelsFrom 0 bins from rfl]
      rw [mergeLeft_labelsFrom pixels (fun p => p.bin1_id) 0 bins]
      rw [mergeLeft_labelsFrom (pixels.map (fun p => (p, frameLookup 0 bins p.bin1_id)))
        (fun x => x.1.bin2_id) 0 bins]
    rw [hL, hR]

/-- C2 witness. -/
theorem c2_witness :
    ((([100, 200, 300] : List Int).length > ([⟨0, 2, 5⟩] : List PixelRow).length →
      annRightTable (([⟨0, 2, 5⟩] : List PixelRow).map (fun p => p.bin1_id))
          ([⟨0, 2, 5⟩] : List PixelRow).length
          (indexedBins ([100, 200, 300] : List Int)) =
        pySlice (indexedBins ([100, 200, 300] : List Int))
          (annWindow (([⟨0, 2, 5⟩] : List PixelRow).map (fun p => p.bin1_id))).1
          (annWindow (([⟨0, 2, 5⟩] : List PixelRow).map (fun p => p.bin1_id))).2) ∧
    (¬ ([100, 200, 300] : List Int).length > ([⟨0, 2, 5⟩] : List PixelRow).length →
      annRightTable (([⟨0, 2, 5⟩] : List PixelRow).map (fun p => p.bin1_id))
          ([⟨0, 2, 5⟩] : List PixelRow).length
          (indexedBins ([100, 200, 300] : List Int)) =
        indexedBins ([100, 200, 300] : List Int)) ∧
    annotatePixels [⟨0, 2, 5⟩] ([100, 200, 300] : List Int) =
      annotateFullG [⟨0, 2, 5⟩] (fun p => p.bin1_id) (fun p => p.bin2_id)
        (indexedBins ([100, 200, 300] : List Int))) :=
  c2_annotate_slicing [⟨0, 2, 5⟩] [100, 200, 300] (by decide)

/-! ## MatrixAssembler: the `matrix` function

`matrix(h5, i0, i1, j0, j1, field, dense, balance, as_pixels, join, ...)`
dispatches between the pixel-table, dense and sparse output modes after
an up-front check that the weight column exists when balancing is
requested.  The pixel reads `triu_reader.query(...)` (pixel-table mode)
and `query_rect(triu_reader.query, ...)` (matrix modes) live in the
`core` module, outside the files under verification, so their result
triples `(bin1_id, bin2_id, value)` are taken as parameters `qt` and
`qr`; everything downstream of them is embedded from `cooler/api.py`. -/

/-- Error raised by the matrix selector. -/
inductive CoolerErr where
  | missingWeights
deriving Repr, DecidableEq

/-- Result of the matrix selector in its three output modes: a pixel
frame (with optional balanced column and optional join against bin
metadata of type `μ`), a dense array, or a sparse coordinate matrix. -/
inductive MatrixResult (μ : Type) where
  | pixelFrame (rows : List PixelRow) (balanced : Option (List (Option ℚ)))
      (joined : Option (List (Option μ × Option μ × PixelRow)))
  | denseArr (arr : List (List ℚ))
  | sparse (shape : Nat × Nat) (entries : List (Nat × Nat × ℚ))
deriving DecidableEq

/-- The labelled frame returned by `get(h5['bins'], lo, hi, [col])` for
natural bounds: the clamped row window together with its absolute row
labels `lo, lo+1, ...`. -/
def labeledGet (col : List α) (lo hi : Nat) : List (Int × α) :=
  labelsFrom lo ((col.take hi).drop lo)

/-- The entry list of the sparse matrix branch: row and column indices
shifted by the query origin, and, when balancing, each value multiplied
by `bias1[row] * bias2[col]` with the biases sliced from the weight
column over the two query ranges (the source reuses `bias1` when the
ranges coincide). -/
def matrixSparseEntries (w : List ℚ) (balance : Bool)
    (qr : List (Nat × Nat × ℚ)) (i0 i1 j0 j1 : Nat) : List (Nat × Nat × ℚ) :=
  let shifted := qr.map (fun t => (t.1 - i0, t.2.1 - j0, t.2.2))
  if balance then
    let bias1 := (w.take i1).drop i0
    let bias2 := if (i0, i1) = (j0, j1) then bias1 else (w.take j1).drop j0
    shifted.map (fun t => (t.1, t.2.1, bias1.getD t.1 0 * bias2.getD t.2.1 0 * t.2.2))
  else shifted

/-- Materialization of a coordinate matrix into a full rectangular
array (`coo_matrix(...).toarray()`): duplicate coordinates are summed
and cells covered by no entry are zero. -/
def cooToArray (nrows ncols : Nat) (entries : List (Nat × Nat × ℚ)) : List (List ℚ) :=
  (List.range nrows).map (fun r =>
    (List.range ncols).map (fun c =>
      ((entries.filter (fun e => e.1 = r ∧ e.2.1 = c)).map (fun e => e.2.2)).sum))

/-- The dense matrix branch: the materialized coordinate matrix,
multiplied entrywise by `np.outer(bias1, bias2)` when balancing. -/
def matrixDense (w : List ℚ) (balance : Bool)
    (qr : List (Nat × Nat × ℚ)) (i0 i1 j0 j1 : Nat) : List (List ℚ) :=
  let arr := cooToArray (i1 - i0) (j1 - j0)
    (qr.map (fun t => (t.1 - i0, t.2.1 - j0, t.2.2)))
  if balance then
    let bias1 := (w.take i1).drop i0
    let bias2 := if (i0, i1) = (j0, j1) then bias1 else (w.take j1).drop j0
    (List.range (i1 - i0)).map (fun r => (List.range (j1 - j0)).map (fun c =>
      (arr.getD r []).getD c 0 * (bias1.getD r 0 * bias2.getD c 0)))
  else arr

/-- The balanced column of the pixel-table branch: the pixel frame is
annotated against the windowed weight frame
`get(h5['bins'], min(i0,j0), max(i1,j1), ['weight'])` and the column is
`weight1 * weight2 * value` (missing weights propagate as NaN, modelled
by `none`). -/
def balancedColumn (w : List ℚ) (df : List PixelRow) (i0 i1 j0 j1 : Nat) :
    List (Option ℚ) :=
  (annotateG df (fun p => p.bin1_id) (fun p => p.bin2_id)
    (labeledGet w (min i0 j0) (max i1 j1))).map
    (fun x => match x.1, x.2.1 with
      | some w1, some w2 => some (w1 * w2 * x.2.2.value)
      | _, _ => none)

/-- Embedding of `matrix` from `cooler/api.py`.  The weight column is
`weight?` (`none` when `bins/weight` is absent); `binsMeta` is the bin
metadata used by the optional join of the pixel-table mode; `qt` and
`qr` are the triples produced by the pixel reader for the two read
paths.  The missing-weight check precedes all branches, so the error
is produced without consuming `qt` or `qr`; after the check, a present
weight column is passed on (the `getD []` default is never reached
when balancing). -/
def coolerMatrix (weight? : Option (List ℚ)) (binsMeta : List μ)
    (qt qr : List (Nat × Nat × ℚ)) (i0 i1 j0 j1 : Nat)
    (dense balance asPixels joinFlag : Bool) :
    Except CoolerErr (MatrixResult μ) :=
  if balance ∧ weight?.isNone then
    Except.error CoolerErr.missingWeights
  else if asPixels then
    let df := qt.map (fun t => PixelRow.mk t.1 t.2.1 t.2.2)
    let balancedCol :=
      if balance then some (balancedColumn (weight?.getD []) df i0 i1 j0 j1)
      else none
    let joined :=
      if joinFlag then
        some (annotateG df (fun p => p.bin1_id) (fun p => p.bin2_id)
          (labeledGet binsMeta (min i0 j0) (max i1 j1)))
      else none
    Except.ok (MatrixResult.pixelFrame df balancedCol joined)
  else if dense then
    Except.ok (MatrixResult.denseArr
      (matrixDense (weight?.getD []) balance qr i0 i1 j0 j1))
  else
    Except.ok (MatrixResult.sparse (i1 - i0, j1 - j0)
      (matrixSparseEntries (weight?.getD []) balance qr i0 i1 j0 j1))

/-- C1: with balancing requested, a missing weight column makes every
matrix query fail with the missing-weights error before any pixel read
is consumed (the result is the error for all pixel reader outputs, in
all three output modes), and a present weight column never produces
that error. -/
theorem c1_missing_weights_check (μ : Type) (binsMeta : List μ)
    (qt qr qt2 qr2 : List (Nat × Nat × ℚ)) (i0 i1 j0 j1 : Nat)
    (dense asPixels joinFlag : Bool) :
    (coolerMatrix (μ := μ) none binsMeta qt qr i0 i1 j0 j1
        dense true asPixels joinFlag = Except.error CoolerErr.missingWeights ∧
      coolerMatrix (μ := μ) none binsMeta qt qr i0 i1 j0 j1
          dense true asPixels joinFlag =
        coolerMatrix (μ := μ) none binsMeta qt2 qr2 i0 i1 j0 j1
          dense true asPixels joinFlag) ∧
    ∀ w : List ℚ,
      (coolerMatrix (μ := μ) (some w) binsMeta qt qr i0 i1 j0 j1
        dense true asPixels joinFlag).isOk = true := by
  refine ⟨⟨?_, ?_⟩, ?_⟩
  · simp [coolerMatrix]
  · simp [coolerMatrix]
  · intro w
    cases asPixels <;> cases dense <;>
      simp [coolerMatrix, Except.isOk, Except.toBool]

/-- The source's reuse of `bias1` when the two query ranges coincide is
the same slice as computing `bias2` directly. -/
theorem bias2_collapse (w : List ℚ) (i0 i1 j0 j1 : Nat) :
    (if (i0, i1) = (j0, j1) then (w.take i1).drop i0 else (w.take j1).drop j0) =
      (w.take j1).drop j0 := by
  split
  · rename_i h
    rw [Prod.mk.injEq] at h
    rw [h.1, h.2]
  · rfl

/-- A bias read from a sliced weight column is the weight of the
corresponding global bin. -/
theorem bias_getD (w : List ℚ) (a b i : Nat) (ha : a ≤ i) (hb : i < b)
    (hw : i < w.length) :
    ((w.take b).drop a).getD (i - a) 0 = w.getD i 0 := by
  have hlen : i - a < ((w.take b).drop a).length := by
    simp only [List.length_drop, List.length_take]
    omega
  rw [slice_getD w a b (i - a) 0 hlen]
  congr 1
  omega

/-- C5: a balanced sparse-mode matrix query yields shape
`(i1-i0, j1-j0)` and exactly the query triples with locally zero-based
indices, each value multiplied by `weight[i0+r] * weight[j0+c]`. -/
theorem c5_sparse_balanced (μ : Type) (w : List ℚ) (binsMeta : List μ)
    (qt qr : List (Nat × Nat × ℚ)) (i0 i1 j0 j1 : Nat) (joinFlag : Bool)
    (hrange : ∀ t ∈ qr, i0 ≤ t.1 ∧ t.1 < i1 ∧ j0 ≤ t.2.1 ∧ t.2.1 < j1)
    (hi1 : i1 ≤ w.length) (hj1 : j1 ≤ w.length) :
    coolerMatrix (μ := μ) (some w) binsMeta qt qr i0 i1 j0 j1
        false true false joinFlag =
      Except.ok (MatrixResult.sparse (i1 - i0, j1 - j0)
        (qr.map (fun t =>
          (t.1 - i0, t.2.1 - j0, w.getD t.1 0 * w.getD t.2.1 0 * t.2.2)))) := by
  simp only [coolerMatrix, Option.isNone_some, and_false, if_false,
    Bool.false_eq_true, if_true, Option.getD_some]
  congr 1
  congr 1
  simp only [matrixSparseEntries, bias2_collapse, if_true, List.map_map]
  apply List.map_congr_left
  intro t ht
  obtain ⟨h1, h2, h3, h4⟩ := hrange t ht
  simp only [Function.comp]
  have hb1 : ((w.take i1).drop i0).getD (t.1 - i0) 0 = w.getD t.1 0 :=
    bias_getD w i0 i1 t.1 h1 h2 (by omega)
  have hb2 : ((w.take j1).drop j0).getD (t.2.1 - j0) 0 = w.getD t.2.1 0 :=
    bias_getD w j0 j1 t.2.1 h3 h4 (by omega)
  rw [hb1, hb2]

/-- C5 witness: the scenario with weight column `[1, 1/2, 2]` and the
single pixel `(0, 1, 4)`, whose balanced value is `1 * 1/2 * 4 = 2`. -/
theorem c5_witness :
    ((∀ t ∈ ([((0 : Nat), (1 : Nat), (4 : ℚ))] : List (Nat × Nat × ℚ)),
        0 ≤ t.1 ∧ t.1 < 2 ∧ 0 ≤ t.2.1 ∧ t.2.1 < 2) ∧
      2 ≤ ([1, 1/2, 2] : List ℚ).length) ∧
    coolerMatrix (μ := Unit) (some [1, 1/2, 2]) [] []
        [((0 : Nat), (1 : Nat), (4 : ℚ))] 0 2 0 2 false true false false =
      Except.ok (MatrixResult.sparse (2 - 0, 2 - 0)
        [((0 : Nat), (1 : Nat), (2 : ℚ))]) := by
  have hrange : ∀ t ∈ ([((0 : Nat), (1 : Nat), (4 : ℚ))] : List (Nat × Nat × ℚ)),
      (0 : Nat) ≤ t.1 ∧ t.1 < 2 ∧ (0 : Nat) ≤ t.2.1 ∧ t.2.1 < 2 := by
    intro t ht
    rw [List.mem_singleton] at ht
    subst ht
    refine ⟨by omega, by norm_num, by omega, by norm_num⟩
  have hlen : (2 : Nat) ≤ ([1, 1/2, 2] : List ℚ).length := by
    simp
  refine ⟨⟨hrange, hlen⟩, ?_⟩
  rw [c5_sparse_balanced Unit [1, 1/2, 2] [] []
    [((0 : Nat), (1 : Nat), (4 : ℚ))] 0 2 0 2 false hrange hlen hlen]
  simp only [List.map_cons, List.map_nil, List.getD]
  norm_num

/-- Scaling every entry value by the bias of its own coordinates
commutes with summing the values at one fixed coordinate pair. -/
theorem cooToArray_scaled (entries : List (Nat × Nat × ℚ)) (b1 b2 : List ℚ)
    (r c : Nat) :
    (((entries.map (fun e =>
          (e.1, e.2.1, b1.getD e.1 0 * b2.getD e.2.1 0 * e.2.2))).filter
        (fun e => e.1 = r ∧ e.2.1 = c)).map (fun e => e.2.2)).sum =
      ((entries.filter (fun e => e.1 = r ∧ e.2.1 = c)).map
        (fun e => e.2.2)).sum * (b1.getD r 0 * b2.getD c 0) := by
  induction entries with
  | nil => simp
  | cons e rest ih =>
    simp only [List.map_cons, List.filter_cons]
    by_cases h : e.1 = r ∧ e.2.1 = c
    · rw [if_pos (by simpa using h), if_pos (by simpa using h)]
      simp only [List.map_cons, List.sum_cons, ih]
      obtain ⟨h1, h2⟩ := h
      rw [h1, h2]
      ring
    · rw [if_neg (by simpa using h), if_neg (by simpa using h)]
      exact ih

/-- An element of a map over `List.range`. -/
theorem range_map_getD (n : Nat) (f : Nat → α) (d : α) (r : Nat) (hr : r < n) :
    ((List.range n).map f).getD r d = f r := by
  rw [List.getD_eq_getElem _ _ (by simpa using hr)]
  simp

/-- The dense branch is the materialization of the sparse branch. -/
theorem matrixDense_eq_cooToArray (w : List ℚ) (balance : Bool)
    (qr : List (Nat × Nat × ℚ)) (i0 i1 j0 j1 : Nat) :
    matrixDense w balance qr i0 i1 j0 j1 =
      cooToArray (i1 - i0) (j1 - j0)
        (matrixSparseEntries w balance qr i0 i1 j0 j1) := by
  cases balance with
  | false => rfl
  | true =>
    simp only [matrixDense, matrixSparseEntries, bias2_collapse, if_true]
    unfold cooToArray
    apply List.map_congr_left
    intro r hr
    apply List.map_congr_left
    intro c hc
    rw [List.mem_range] at hr hc
    rw [range_map_getD _ _ _ r hr, range_map_getD _ _ _ c hc]
    rw [cooToArray_scaled]

/-- C6: in dense mode the matrix query returns exactly the sparse-mode
entry list of the same query materialized as a full `(i1-i0, j1-j0)`
array, duplicate coordinates summed and uncovered cells zero, with and
without balancing. -/
theorem c6_dense_matches_sparse (μ : Type) (binsMeta : List μ)
    (w? : Option (List ℚ)) (qt qr : List (Nat × Nat × ℚ))
    (i0 i1 j0 j1 : Nat) (balance joinFlag : Bool)
    (hw : balance = true → w?.isSome = true) :
    coolerMatrix (μ := μ) w? binsMeta qt qr i0 i1 j0 j1
        true balance false joinFlag =
      Except.ok (MatrixResult.denseArr (cooToArray (i1 - i0) (j1 - j0)
        (matrixSparseEntries (w?.getD []) balance qr i0 i1 j0 j1))) ∧
    coolerMatrix (μ := μ) w? binsMeta qt qr i0 i1 j0 j1
        false balance false joinFlag =
      Except.ok (MatrixResult.sparse (i1 - i0, j1 - j0)
        (matrixSparseEntries (w?.getD []) balance qr i0 i1 j0 j1)) := by
  have hcond : ¬((balance = true) ∧ (w?.isNone = true)) := by
    rintro ⟨hb, hn⟩
    have := hw hb
    cases w? with
    | none => simp at this
    | some w => simp at hn
  constructor
  · simp only [coolerMatrix, if_neg hcond, Bool.false_eq_true, if_false, if_true]
    rw [matrixDense_eq_cooToArray]
  · simp only [coolerMatrix, if_neg hcond, Bool.false_eq_true, if_false]

/-- C6 witness. -/
theorem c6_witness :
    (true = true → (some ([1] : List ℚ)).isSome = true) ∧
    (coolerMatrix (μ := Unit) (some ([1] : List ℚ)) [] []
        [((0 : Nat), (0 : Nat), (1 : ℚ))] 0 1 0 1 true true false false =
      Except.ok (MatrixResult.denseArr (cooToArray (1 - 0) (1 - 0)
        (matrixSparseEntries ((some ([1] : List ℚ)).getD []) true
          [((0 : Nat), (0 : Nat), (1 : ℚ))] 0 1 0 1))) ∧
    coolerMatrix (μ := Unit) (some ([1] : List ℚ)) [] []
        [((0 : Nat), (0 : Nat), (1 : ℚ))] 0 1 0 1 false true false false =
      Except.ok (MatrixResult.sparse (1 - 0, 1 - 0)
        (matrixSparseEntries ((some ([1] : List ℚ)).getD []) true
          [((0 : Nat), (0 : Nat), (1 : ℚ))] 0 1 0 1))) :=
  ⟨fun _ => rfl,
   c6_dense_matches_sparse Unit [] (some [1]) []
     [((0 : Nat), (0 : Nat), (1 : ℚ))] 0 1 0 1 true false (fun _ => rfl)⟩

/-- C8: if `weight[k] = 0`, every balanced matrix entry whose row or
column corresponds to bin `k` is zero, in sparse mode (every stored
entry value) and in dense mode (every array cell) alike. -/
theorem c8_zero_weight_propagation (w : List ℚ) (k : Nat)
    (qr : List (Nat × Nat × ℚ)) (i0 i1 j0 j1 : Nat)
    (hk : k < w.length) (hw0 : w.getD k 0 = 0)
    (hrange : ∀ t ∈ qr, i0 ≤ t.1 ∧ t.1 < i1 ∧ j0 ≤ t.2.1 ∧ t.2.1 < j1) :
    (∀ t ∈ matrixSparseEntries w true qr i0 i1 j0 j1,
      (i0 + t.1 = k ∨ j0 + t.2.1 = k) → t.2.2 = 0) ∧
    (∀ r c, r < i1 - i0 → c < j1 - j0 → (i0 + r = k ∨ j0 + c = k) →
      ((matrixDense w true qr i0 i1 j0 j1).getD r []).getD c 0 = 0) := by
  constructor
  · intro t ht hcoord
    simp only [matrixSparseEntries, bias2_collapse, if_true, List.map_map] at ht
    rcases List.mem_map.1 ht with ⟨s, hs, rfl⟩
    obtain ⟨h1, h2, h3, h4⟩ := hrange s hs
    simp only [Function.comp]
    rcases hcoord with hrow | hcol
    · have hsk : s.1 = k := by
        simp only [Function.comp] at hrow
        omega
      rw [bias_getD w i0 i1 s.1 h1 h2 (by omega), hsk, hw0]
      ring
    · have hsk : s.2.1 = k := by
        simp only [Function.comp] at hcol
        omega
      rw [bias_getD w j0 j1 s.2.1 h3 h4 (by omega), hsk, hw0]
      ring
  · intro r c hr hc hcoord
    simp only [matrixDense, bias2_collapse, if_true]
    rw [range_map_getD _ _ _ r hr, range_map_getD _ _ _ c hc]
    rcases hcoord with hrow | hcol
    · have hb : ((w.take i1).drop i0).getD r 0 = w.getD (i0 + r) 0 := by
        have := bias_getD w i0 i1 (i0 + r) (by omega) (by omega) (by omega)
        simpa using this
      rw [hb, hrow, hw0]
      ring
    · have hb : ((w.take j1).drop j0).getD c 0 = w.getD (j0 + c) 0 := by
        have := bias_getD w j0 j1 (j0 + c) (by omega) (by omega) (by omega)
        simpa using this
      rw [hb, hcol, hw0]
      ring

/-- C8 witness. -/
theorem c8_witness :
    ((1 < ([1, 0, 2] : List ℚ).length ∧ ([1, 0, 2] : List ℚ).getD 1 0 = 0 ∧
      (∀ t ∈ ([((0 : Nat), (1 : Nat), (3 : ℚ)), ((1 : Nat), (1 : Nat), (5 : ℚ))] :
          List (Nat × Nat × ℚ)),
        0 ≤ t.1 ∧ t.1 < 2 ∧ 0 ≤ t.2.1 ∧ t.2.1 < 2)) ∧
    (∀ t ∈ matrixSparseEntries [1, 0, 2] true
        [((0 : Nat), (1 : Nat), (3 : ℚ)), ((1 : Nat), (1 : Nat), (5 : ℚ))] 0 2 0 2,
      (0 + t.1 = 1 ∨ 0 + t.2.1 = 1) → t.2.2 = 0) ∧
    (∀ r c, r < 2 - 0 → c < 2 - 0 → (0 + r = 1 ∨ 0 + c = 1) →
      ((matrixDense [1, 0, 2] true
          [((0 : Nat), (1 : Nat), (3 : ℚ)), ((1 : Nat), (1 : Nat), (5 : ℚ))]
          0 2 0 2).getD r []).getD c 0 = 0)) := by
  have hk : (1 : Nat) < ([1, 0, 2] : List ℚ).length := by simp
  have hw0 : ([1, 0, 2] : List ℚ).getD 1 0 = 0 := rfl
  have hrange : ∀ t ∈ ([((0 : Nat), (1 : Nat), (3 : ℚ)),
      ((1 : Nat), (1 : Nat), (5 : ℚ))] : List (Nat × Nat × ℚ)),
      (0 : Nat) ≤ t.1 ∧ t.1 < 2 ∧ (0 : Nat) ≤ t.2.1 ∧ t.2.1 < 2 := by
    intro t ht
    rcases List.mem_cons.1 ht with h | h
    · subst h
      refine ⟨by omega, by norm_num, by omega, by norm_num⟩
    · rw [List.mem_singleton] at h
      subst h
      refine ⟨by omega, by norm_num, by omega, by norm_num⟩
  exact ⟨⟨hk, hw0, hrange⟩,
    c8_zero_weight_propagation [1, 0, 2] 1
      [((0 : Nat), (1 : Nat), (3 : ℚ)), ((1 : Nat), (1 : Nat), (5 : ℚ))]
      0 2 0 2 hk hw0 hrange⟩
